import Mathlib

/-!
Shallow embedding of `pval_trimmer.py`.

The script is a single linear pipeline over a wide-form table of p-values
(rows keyed by `read_id`, integer position columns, missing cells allowed):

  load_csv -> duplicate-read-id check -> longify -> compute read ends
  -> merge + QUERY filter -> widify -> write

We model the long form as a `List Obs` (pandas preserves row-major order when
stacking), the wide form as an explicit column list plus rows of optional
cells, positions and configuration parameters as `Int` (the script casts them
with `int`), and p-values as `Rat` (they are only carried, never computed
with). Missing cells are `Option.none`.
-/

/-- One long-form row: a `(read_id, pos_0b, pval)` triple, as produced by
`longify` (`df.stack().rename('pval').dropna().reset_index()`). -/
structure Obs where
  read_id : String
  pos_0b : Int
  pval : Rat
deriving DecidableEq

/-- The `(read_id, pos_0b)` coordinate of an observation. -/
def Obs.key (o : Obs) : String × Int := (o.read_id, o.pos_0b)

/-- The four integer command-line parameters of the script
(`sys.argv[1]` .. `sys.argv[4]`, each passed through `int`). -/
structure TrimConfig where
  trim_from_5prime : Int
  trim_from_3prime : Int
  exemption_boundary_5prime : Int
  exemption_boundary_3prime : Int
deriving DecidableEq

/-- A wide-form table as produced by `load_csv`: integer column labels
(`retval.columns.astype(int)`), and one row per `read_id` holding one
optional cell per column (`NaN` cells are `none`). -/
structure WideTable where
  cols : List Int
  rows : List (String × List (Option Rat))
deriving DecidableEq

/-- The long-form rows contributed by one wide row: `stack` pairs the row
with each column label and `dropna` discards the missing cells. -/
def longifyRow (cols : List Int) (row : String × List (Option Rat)) : List Obs :=
  (cols.zip row.2).filterMap fun c => c.2.map fun v => ⟨row.1, c.1, v⟩

/-- `longify`: convert the wide table to long format
(`df.stack().rename('pval').dropna().reset_index()`). `stack` walks the rows
in order and, within a row, the columns in order. -/
def longify (w : WideTable) : List Obs :=
  w.rows.flatMap (longifyRow w.cols)

/-- The cell a long-form table holds at coordinate `(rid, pos)`
(`none` when no such row exists). -/
def lookupObs (l : List Obs) (rid : String) (pos : Int) : Option Rat :=
  (l.find? fun o => o.read_id == rid && o.pos_0b == pos).map Obs.pval

/-- `widify`: undo `longify`
(`df.set_index(['read_id', 'pos_0b']).unstack().droplevel(0, axis=1)`).
`unstack` emits the distinct row and column labels in sorted order and fills
absent coordinates with `NaN`. -/
def widify (l : List Obs) : WideTable :=
  let cols := ((l.map Obs.pos_0b).dedup).insertionSort (· ≤ ·)
  let rids := ((l.map Obs.read_id).dedup).insertionSort (· ≤ ·)
  ⟨cols, rids.map fun rid => (rid, cols.map fun p => lookupObs l rid p)⟩

/-- The cell a wide table holds at coordinate `(rid, pos)`: `none` when the
row or column label is absent or the cell itself is missing. -/
def cellValue (w : WideTable) (rid : String) (pos : Int) : Option Rat :=
  (((w.rows.find? fun r => r.1 == rid).bind fun r =>
    (w.cols.zip r.2).find? fun c => c.1 == pos).bind Prod.snd)

/-- The positions at which a given read has observations, in table order. -/
def positionsOf (l : List Obs) (rid : String) : List Int :=
  (l.filter fun o => o.read_id == rid).map Obs.pos_0b

/-- The end-computer (`untrimmed.groupby('read_id').agg(...)`): for a read
with at least one observation, the pair
`(end_5prime_0b, end_3prime_0b) = (min pos_0b, max pos_0b)` over its
observations; reads with no observation are absent from the grouped result,
modelled here as `none`. -/
def readEnds (l : List Obs) (rid : String) : Option (Int × Int) :=
  match positionsOf l rid with
  | [] => none
  | p :: ps => some (ps.foldl min p, ps.foldl max p)

/-- The boolean `QUERY` constant of the script, evaluated on one merged row.
`dist_from_end_5prime = pos_0b - end_5prime_0b` and
`dist_from_end_3prime = end_3prime_0b - pos_0b` are the two columns added by
`assign`; the four `@`-parameters come from the configuration. -/
def QUERY (cfg : TrimConfig) (dist_from_end_5prime dist_from_end_3prime
    end_5prime_0b end_3prime_0b : Int) : Bool :=
  (decide (dist_from_end_5prime ≥ cfg.trim_from_5prime)
    || decide (end_5prime_0b < cfg.exemption_boundary_5prime))
  && (decide (dist_from_end_3prime ≥ cfg.trim_from_3prime)
    || decide (end_3prime_0b > cfg.exemption_boundary_3prime))

/-- The merge-assign-query-select chain of the `trimmed` block, with the end
table abstracted as a function `ends`: each row is inner-joined with the ends
of its read (rows whose read is absent from `ends` are dropped by the inner
merge), the two distance columns are computed, the row is kept iff `QUERY`
holds, and only the original three columns are retained. -/
def trimWithEnds (cfg : TrimConfig) (ends : String → Option (Int × Int))
    (l : List Obs) : List Obs :=
  l.filterMap fun o =>
    match ends o.read_id with
    | none => none
    | some (e5, e3) =>
        if QUERY cfg (o.pos_0b - e5) (e3 - o.pos_0b) e5 e3 then some o else none

/-- The `trimmed` dataframe of the script: the long table filtered with
`QUERY` against the read ends computed from that same table. -/
def trimmed (cfg : TrimConfig) (untrimmed : List Obs) : List Obs :=
  trimWithEnds cfg (readEnds untrimmed) untrimmed

/-- The whole run after loading: the `wide.index.is_unique` check (which
raises before anything else happens, so no output is produced), then
`widify(trimmed(longify(wide)))`, the table passed to `to_csv`. -/
def runTrimmer (cfg : TrimConfig) (wide : WideTable) : Except String WideTable :=
  if (wide.rows.map Prod.fst).Nodup then
    Except.ok (widify (trimmed cfg (longify wide)))
  else
    Except.error ("There is a duplicate read ID in the given file. " ++
      "This script requires unique read IDs.")

/-! ### Helper lemmas about `foldl min` and `foldl max` -/

theorem foldl_min_mem (ps : List Int) : ∀ p : Int, ps.foldl min p ∈ p :: ps := by
  induction ps with
  | nil => intro p; simp
  | cons q qs ih =>
    intro p
    simp only [List.foldl_cons]
    rcases List.mem_cons.mp (ih (min p q)) with h | h
    · rcases min_choice p q with h' | h'
      · rw [h, h']; exact List.mem_cons_self p _
      · rw [h, h']; exact List.mem_cons.mpr (Or.inr (List.mem_cons_self q qs))
    · exact List.mem_cons.mpr (Or.inr (List.mem_cons.mpr (Or.inr h)))

theorem foldl_min_le (ps : List Int) :
    ∀ p q : Int, q ∈ p :: ps → ps.foldl min p ≤ q := by
  induction ps with
  | nil =>
    intro p q h
    rw [List.mem_singleton] at h
    simp [h]
  | cons r rs ih =>
    intro p q h
    simp only [List.foldl_cons]
    rcases List.mem_cons.mp h with h | h
    · rw [h]
      exact (ih (min p r) _ (List.mem_cons_self _ _)).trans (min_le_left p r)
    · rcases List.mem_cons.mp h with h | h
      · rw [h]
        exact (ih (min p r) _ (List.mem_cons_self _ _)).trans (min_le_right p r)
      · exact ih (min p r) q (List.mem_cons.mpr (Or.inr h))

theorem foldl_max_mem (ps : List Int) : ∀ p : Int, ps.foldl max p ∈ p :: ps := by
  induction ps with
  | nil => intro p; simp
  | cons q qs ih =>
    intro p
    simp only [List.foldl_cons]
    rcases List.mem_cons.mp (ih (max p q)) with h | h
    · rcases max_choice p q with h' | h'
      · rw [h, h']; exact List.mem_cons_self p _
      · rw [h, h']; exact List.mem_cons.mpr (Or.inr (List.mem_cons_self q qs))
    · exact List.mem_cons.mpr (Or.inr (List.mem_cons.mpr (Or.inr h)))

theorem le_foldl_max (ps : List Int) :
    ∀ p q : Int, q ∈ p :: ps → q ≤ ps.foldl max p := by
  induction ps with
  | nil =>
    intro p q h
    rw [List.mem_singleton] at h
    simp [h]
  | cons r rs ih =>
    intro p q h
    simp only [List.foldl_cons]
    rcases List.mem_cons.mp h with h | h
    · rw [h]
      exact (le_max_left p r).trans (ih (max p r) _ (List.mem_cons_self _ _))
    · rcases List.mem_cons.mp h with h | h
      · rw [h]
        exact (le_max_right p r).trans (ih (max p r) _ (List.mem_cons_self _ _))
      · exact ih (max p r) q (List.mem_cons.mpr (Or.inr h))

/-! ### Membership in the trimmed table -/

theorem mem_trimWithEnds {cfg : TrimConfig} {ends : String → Option (Int × Int)}
    {l : List Obs} {o : Obs} :
    o ∈ trimWithEnds cfg ends l ↔
      o ∈ l ∧ ∃ e5 e3, ends o.read_id = some (e5, e3) ∧
        QUERY cfg (o.pos_0b - e5) (e3 - o.pos_0b) e5 e3 = true := by
  unfold trimWithEnds
  rw [List.mem_filterMap]
  constructor
  · rintro ⟨a, ha, hfa⟩
    split at hfa
    · exact absurd hfa (by simp)
    · rename_i e5 e3 heq
      split at hfa
      · rename_i hq
        obtain rfl : a = o := by injection hfa
        exact ⟨ha, e5, e3, heq, hq⟩
      · exact absurd hfa (by simp)
  · rintro ⟨ho, e5, e3, hE, hq⟩
    refine ⟨o, ho, ?_⟩
    rw [hE]
    simp [hq]

theorem mem_trimmed_iff {cfg : TrimConfig} {tbl : List Obs} {o : Obs} :
    o ∈ trimmed cfg tbl ↔
      o ∈ tbl ∧ ∃ e5 e3, readEnds tbl o.read_id = some (e5, e3) ∧
        ((o.pos_0b - e5 ≥ cfg.trim_from_5prime ∨ e5 < cfg.exemption_boundary_5prime) ∧
         (e3 - o.pos_0b ≥ cfg.trim_from_3prime ∨ e3 > cfg.exemption_boundary_3prime)) := by
  rw [trimmed, mem_trimWithEnds]
  simp only [QUERY, Bool.and_eq_true, Bool.or_eq_true, decide_eq_true_eq]

/-! ### Claim theorems -/

/-- C1: an observation survives the trim filter iff it is in the input long
table and, with `(e5, e3)` the empirical ends of its read, both
`pos - e5 ≥ trim_from_5prime ∨ e5 < exemption_boundary_5prime` and
`e3 - pos ≥ trim_from_3prime ∨ e3 > exemption_boundary_3prime` hold. -/
theorem C1_trim_keep_iff (cfg : TrimConfig) (tbl : List Obs) (o : Obs) :
    o ∈ trimmed cfg tbl ↔
      o ∈ tbl ∧ ∃ e5 e3, readEnds tbl o.read_id = some (e5, e3) ∧
        ((o.pos_0b - e5 ≥ cfg.trim_from_5prime ∨ e5 < cfg.exemption_boundary_5prime) ∧
         (e3 - o.pos_0b ≥ cfg.trim_from_3prime ∨ e3 > cfg.exemption_boundary_3prime)) :=
  mem_trimmed_iff

/-! ### Characterisation of `readEnds` -/

theorem minmax_some_iff (xs : List Int) (e5 e3 : Int) :
    (match xs with
     | [] => (none : Option (Int × Int))
     | p :: ps => some (ps.foldl min p, ps.foldl max p)) = some (e5, e3) ↔
      e5 ∈ xs ∧ e3 ∈ xs ∧ ∀ q ∈ xs, e5 ≤ q ∧ q ≤ e3 := by
  cases xs with
  | nil => simp
  | cons p ps =>
    simp only [Option.some.injEq, Prod.mk.injEq]
    constructor
    · rintro ⟨rfl, rfl⟩
      refine ⟨foldl_min_mem ps p, foldl_max_mem ps p, ?_⟩
      intro q hq
      exact ⟨foldl_min_le ps p q hq, le_foldl_max ps p q hq⟩
    · rintro ⟨h5mem, h3mem, hbound⟩
      constructor
      · exact le_antisymm (foldl_min_le ps p e5 h5mem)
          ((hbound _ (foldl_min_mem ps p)).1)
      · exact le_antisymm ((hbound _ (foldl_max_mem ps p)).2)
          (le_foldl_max ps p e3 h3mem)

theorem readEnds_eq_some_iff (l : List Obs) (rid : String) (e5 e3 : Int) :
    readEnds l rid = some (e5, e3) ↔
      e5 ∈ positionsOf l rid ∧ e3 ∈ positionsOf l rid ∧
        ∀ q ∈ positionsOf l rid, e5 ≤ q ∧ q ≤ e3 :=
  minmax_some_iff (positionsOf l rid) e5 e3

theorem readEnds_eq_none_iff (l : List Obs) (rid : String) :
    readEnds l rid = none ↔ positionsOf l rid = [] := by
  unfold readEnds
  cases hps : positionsOf l rid <;> simp

theorem positionsOf_eq_nil_iff (l : List Obs) (rid : String) :
    positionsOf l rid = [] ↔ ∀ o ∈ l, o.read_id ≠ rid := by
  unfold positionsOf
  rw [List.map_eq_nil_iff, List.filter_eq_nil_iff]
  constructor
  · intro h o ho
    have := h o ho
    simpa using this
  · intro h o ho
    simpa using h o ho

/-- C2: the end-computer maps every read with at least one observation to
exactly the pair (min observed position, max observed position), a read with
no observation is absent from the grouped result, and no observation of such
a read appears in the trimmed output. -/
theorem C2_read_ends (tbl : List Obs) (rid : String) :
    (∀ e5 e3, readEnds tbl rid = some (e5, e3) ↔
        (e5 ∈ positionsOf tbl rid ∧ e3 ∈ positionsOf tbl rid ∧
          ∀ q ∈ positionsOf tbl rid, e5 ≤ q ∧ q ≤ e3))
    ∧ (readEnds tbl rid = none ↔ ∀ o ∈ tbl, o.read_id ≠ rid)
    ∧ (readEnds tbl rid = none →
        ∀ cfg o, o ∈ trimmed cfg tbl → o.read_id ≠ rid) := by
  refine ⟨fun e5 e3 => readEnds_eq_some_iff tbl rid e5 e3,
    (readEnds_eq_none_iff tbl rid).trans (positionsOf_eq_nil_iff tbl rid),
    fun hnone cfg o ho hrid => ?_⟩
  obtain ⟨-, e5, e3, hend, -⟩ := mem_trimmed_iff.mp ho
  rw [hrid, hnone] at hend
  exact Option.noConfusion hend

def tblC2 : List Obs := [⟨"r1", 5, 1⟩, ⟨"r1", 7, 1⟩]

theorem C2_read_ends_witness :
    readEnds tblC2 "r1" = some (5, 7) ∧ readEnds tblC2 "zz" = none :=
  ⟨((C2_read_ends tblC2 "r1").1 5 7).mpr (by decide),
   ((C2_read_ends tblC2 "zz").2.1).mpr (by decide)⟩

/-- C3: a read whose 5-prime end sits exactly on the 5-prime exemption
boundary is not exempted there (the comparison in `QUERY` is strict), so its
observations survive exactly when `pos - e5 ≥ trim_from_5prime` and the
3-prime side condition both hold. -/
theorem C3_boundary_strict (cfg : TrimConfig) (tbl : List Obs) (o : Obs)
    (e5 e3 : Int) (hend : readEnds tbl o.read_id = some (e5, e3))
    (hb : e5 = cfg.exemption_boundary_5prime) :
    o ∈ trimmed cfg tbl ↔
      o ∈ tbl ∧ o.pos_0b - e5 ≥ cfg.trim_from_5prime ∧
        (e3 - o.pos_0b ≥ cfg.trim_from_3prime ∨ e3 > cfg.exemption_boundary_3prime) := by
  rw [mem_trimmed_iff]
  constructor
  · rintro ⟨ho, e5', e3', hend', hcond⟩
    rw [hend] at hend'
    simp only [Option.some.injEq, Prod.mk.injEq] at hend'
    obtain ⟨rfl, rfl⟩ := hend'
    rcases hcond.1 with h | h
    · exact ⟨ho, h, hcond.2⟩
    · rw [hb] at h
      exact absurd h (lt_irrefl _)
  · rintro ⟨ho, h5, h3⟩
    exact ⟨ho, e5, e3, hend, Or.inl h5, h3⟩

def tblC3 : List Obs := [⟨"r1", 0, 1⟩, ⟨"r1", 5, 1⟩]
def cfgC3 : TrimConfig := ⟨2, 0, 0, 10⟩
def obsC3 : Obs := ⟨"r1", 0, 1⟩

theorem C3_boundary_strict_witness :
    obsC3 ∈ trimmed cfgC3 tblC3 ↔
      obsC3 ∈ tblC3 ∧ obsC3.pos_0b - 0 ≥ cfgC3.trim_from_5prime ∧
        ((5 : Int) - obsC3.pos_0b ≥ cfgC3.trim_from_3prime ∨
          (5 : Int) > cfgC3.exemption_boundary_3prime) :=
  C3_boundary_strict cfgC3 tblC3 obsC3 0 5 (by decide) rfl

/-- C4: a read whose 5-prime end lies strictly before the 5-prime exemption
boundary is exempt on that side, so each of its observations survives exactly
when the 3-prime side condition holds, whatever `trim_from_5prime` is. -/
theorem C4_exemption_override (cfg : TrimConfig) (tbl : List Obs) (o : Obs)
    (e5 e3 : Int) (hend : readEnds tbl o.read_id = some (e5, e3))
    (hb : e5 < cfg.exemption_boundary_5prime) :
    o ∈ trimmed cfg tbl ↔
      o ∈ tbl ∧
        (e3 - o.pos_0b ≥ cfg.trim_from_3prime ∨ e3 > cfg.exemption_boundary_3prime) := by
  rw [mem_trimmed_iff]
  constructor
  · rintro ⟨ho, e5', e3', hend', hcond⟩
    rw [hend] at hend'
    simp only [Option.some.injEq, Prod.mk.injEq] at hend'
    obtain ⟨rfl, rfl⟩ := hend'
    exact ⟨ho, hcond.2⟩
  · rintro ⟨ho, h3⟩
    exact ⟨ho, e5, e3, hend, Or.inr hb, h3⟩

def tblC4 : List Obs := [⟨"r1", 0, 1⟩, ⟨"r1", 5, 1⟩]
def cfgC4 : TrimConfig := ⟨100, 0, 1, 10⟩
def obsC4 : Obs := ⟨"r1", 0, 1⟩

theorem C4_exemption_override_witness :
    obsC4 ∈ trimmed cfgC4 tblC4 ↔
      obsC4 ∈ tblC4 ∧
        ((5 : Int) - obsC4.pos_0b ≥ cfgC4.trim_from_3prime ∨
          (5 : Int) > cfgC4.exemption_boundary_3prime) :=
  C4_exemption_override cfgC4 tblC4 obsC4 0 5 (by decide) (by decide)

/-- C5: with all other parameters fixed, the set of observations kept by the
trim filter is antitone in `trim_from_5prime`: an observation dropped at some
value of `trim_from_5prime` is still dropped at every larger value. -/
theorem C5_trim5_antitone (cfg : TrimConfig) (t t' : Int) (hle : t ≤ t')
    (tbl : List Obs) (o : Obs)
    (hdrop : o ∉ trimmed { cfg with trim_from_5prime := t } tbl) :
    o ∉ trimmed { cfg with trim_from_5prime := t' } tbl := by
  intro hmem
  apply hdrop
  rw [mem_trimmed_iff] at hmem ⊢
  obtain ⟨ho, e5, e3, hend, h5, h3⟩ := hmem
  refine ⟨ho, e5, e3, hend, ?_, h3⟩
  rcases h5 with h | h
  · exact Or.inl (le_trans hle h)
  · exact Or.inr h

def tblC5 : List Obs := [⟨"r1", 0, 1⟩, ⟨"r1", 5, 1⟩]
def cfgC5 : TrimConfig := ⟨0, 0, 0, 10⟩
def obsC5 : Obs := ⟨"r1", 0, 1⟩

theorem C5_trim5_antitone_witness :
    obsC5 ∉ trimmed { cfgC5 with trim_from_5prime := 2 } tblC5 :=
  C5_trim5_antitone cfgC5 1 2 (by decide) tblC5 obsC5 (by decide)

/-- C9: the trimmed table is a sublist of the untrimmed one, so every
surviving observation is an unaltered input observation (same read_id, same
position, same p-value) and its read_id occurs in the input. -/
theorem C9_surviving_subset (cfg : TrimConfig) (tbl : List Obs) (o : Obs)
    (h : o ∈ trimmed cfg tbl) :
    o ∈ tbl ∧ ∃ o2 ∈ tbl, o2.read_id = o.read_id := by
  have h' := mem_trimmed_iff.mp h
  exact ⟨h'.1, o, h'.1, rfl⟩

def tblC9 : List Obs := [⟨"r1", 0, 1⟩]
def cfgC9 : TrimConfig := ⟨0, 0, 0, 0⟩
def obsC9 : Obs := ⟨"r1", 0, 1⟩

theorem C9_surviving_subset_witness :
    obsC9 ∈ tblC9 ∧ ∃ o2 ∈ tblC9, o2.read_id = obsC9.read_id :=
  C9_surviving_subset cfgC9 tblC9 obsC9 (by decide)

/-! ### Locality helpers -/

theorem positionsOf_cons (o : Obs) (l : List Obs) (rid : String) :
    positionsOf (o :: l) rid =
      if o.read_id == rid then o.pos_0b :: positionsOf l rid
      else positionsOf l rid := by
  simp only [positionsOf, List.filter_cons]
  by_cases h : (o.read_id == rid) = true <;> simp [h]

/-- C7: the fate of the observations of read `r1` is unchanged when the two
input tables differ only in the observations of another read `r2`. -/
theorem C7_locality (cfg : TrimConfig) (tbl1 tbl2 : List Obs) (r1 r2 : String)
    (hne : r1 ≠ r2)
    (hagree : ∀ rid, rid ≠ r2 →
      tbl1.filter (fun o => o.read_id == rid) = tbl2.filter (fun o => o.read_id == rid))
    (o : Obs) (ho : o.read_id = r1) :
    (o ∈ trimmed cfg tbl1 ↔ o ∈ trimmed cfg tbl2) := by
  have hflt := hagree r1 hne
  have hpos : positionsOf tbl1 r1 = positionsOf tbl2 r1 := by
    unfold positionsOf
    rw [hflt]
  have hends : readEnds tbl1 r1 = readEnds tbl2 r1 := by
    unfold readEnds
    rw [hpos]
  have hmem : o ∈ tbl1 ↔ o ∈ tbl2 := by
    constructor
    · intro h
      have h' : o ∈ tbl1.filter (fun o2 => o2.read_id == r1) :=
        List.mem_filter.mpr ⟨h, by simp [ho]⟩
      rw [hflt] at h'
      exact (List.mem_filter.mp h').1
    · intro h
      have h' : o ∈ tbl2.filter (fun o2 => o2.read_id == r1) :=
        List.mem_filter.mpr ⟨h, by simp [ho]⟩
      rw [← hflt] at h'
      exact (List.mem_filter.mp h').1
  rw [mem_trimmed_iff, mem_trimmed_iff, ho, hends, hmem]

def tblC7a : List Obs := [⟨"r1", 0, 1⟩]
def tblC7b : List Obs := [⟨"r1", 0, 1⟩, ⟨"r2", 7, 1⟩]
def cfgC7 : TrimConfig := ⟨0, 0, 0, 10⟩
def obsC7 : Obs := ⟨"r1", 0, 1⟩

theorem C7_locality_witness :
    obsC7 ∈ trimmed cfgC7 tblC7a ↔ obsC7 ∈ trimmed cfgC7 tblC7b :=
  C7_locality cfgC7 tblC7a tblC7b "r1" "r2" (by decide)
    (by
      intro rid hrid
      have h2 : ((⟨"r2", 7, 1⟩ : Obs).read_id == rid) = false :=
        beq_eq_false_iff_ne.mpr fun h => hrid h.symm
      simp [tblC7a, tblC7b, List.filter_cons, h2])
    obsC7 rfl

/-- C8: on an input table with a repeated read_id, the run stops at the
`is_unique` check with the duplicate-read-id error, before the trimming
pipeline runs and before any output table is produced. -/
theorem C8_duplicate_read_id (cfg : TrimConfig) (w : WideTable)
    (hdup : ¬ (w.rows.map Prod.fst).Nodup) :
    runTrimmer cfg w = Except.error
      ("There is a duplicate read ID in the given file. " ++
        "This script requires unique read IDs.") := by
  unfold runTrimmer
  rw [if_neg hdup]

def cfgC8 : TrimConfig := ⟨0, 0, 0, 0⟩
def wC8 : WideTable := ⟨[0], [("r1", [some 1]), ("r1", [some 2])]⟩

theorem C8_duplicate_read_id_witness :
    runTrimmer cfgC8 wC8 = Except.error
      ("There is a duplicate read ID in the given file. " ++
        "This script requires unique read IDs.") :=
  C8_duplicate_read_id cfgC8 wC8 (by decide)

/-! ### Independence from p-values -/

theorem positionsOf_congr_keys {tbl1 tbl2 : List Obs}
    (h : tbl1.map Obs.key = tbl2.map Obs.key) (rid : String) :
    positionsOf tbl1 rid = positionsOf tbl2 rid := by
  induction tbl1 generalizing tbl2 with
  | nil =>
    cases tbl2 with
    | nil => rfl
    | cons o2 l2 => simp at h
  | cons o l ih =>
    cases tbl2 with
    | nil => simp at h
    | cons o2 l2 =>
      simp only [List.map_cons, List.cons.injEq] at h
      obtain ⟨hk, hrest⟩ := h
      have hid : o.read_id = o2.read_id := congrArg Prod.fst hk
      have hps : o.pos_0b = o2.pos_0b := congrArg Prod.snd hk
      rw [positionsOf_cons, positionsOf_cons, hid, hps, ih hrest]

theorem readEnds_congr_keys {tbl1 tbl2 : List Obs}
    (h : tbl1.map Obs.key = tbl2.map Obs.key) :
    readEnds tbl1 = readEnds tbl2 := by
  funext rid
  unfold readEnds
  rw [positionsOf_congr_keys h rid]

/-- The keep/drop decision of the merged-and-filtered table expressed on the
`(read_id, pos_0b)` coordinate alone. -/
def keyKept (cfg : TrimConfig) (ends : String → Option (Int × Int))
    (k : String × Int) : Option (String × Int) :=
  match ends k.1 with
  | none => none
  | some (e5, e3) => if QUERY cfg (k.2 - e5) (e3 - k.2) e5 e3 then some k else none

theorem map_key_trimWithEnds (cfg : TrimConfig) (ends : String → Option (Int × Int)) :
    ∀ l : List Obs,
      (trimWithEnds cfg ends l).map Obs.key =
        (l.map Obs.key).filterMap (keyKept cfg ends) := by
  intro l
  induction l with
  | nil => rfl
  | cons o l ih =>
    simp only [trimWithEnds, List.filterMap_cons, List.map_cons] at ih ⊢
    cases hE2 : ends o.read_id with
    | none => simp [keyKept, Obs.key, hE2, ih]
    | some pr =>
      obtain ⟨e5, e3⟩ := pr
      by_cases hq : QUERY cfg (o.pos_0b - e5) (e3 - o.pos_0b) e5 e3 = true
      · simp [keyKept, Obs.key, hE2, hq, ih]
      · simp [keyKept, Obs.key, hE2, hq, ih]

/-- C10: the keep/drop decision never looks at a p-value: two long tables
with the same `(read_id, pos_0b)` coordinates in the same order are trimmed
to the same coordinates, whatever their p-values are. -/
theorem C10_pval_independent (cfg : TrimConfig) (tbl1 tbl2 : List Obs)
    (h : tbl1.map Obs.key = tbl2.map Obs.key) :
    (trimmed cfg tbl1).map Obs.key = (trimmed cfg tbl2).map Obs.key := by
  rw [trimmed, trimmed, map_key_trimWithEnds, map_key_trimWithEnds,
    readEnds_congr_keys h, h]

def tblC10a : List Obs := [⟨"r1", 0, 1⟩, ⟨"r1", 3, 1⟩]
def tblC10b : List Obs := [⟨"r1", 0, 2⟩, ⟨"r1", 3, 3⟩]
def cfgC10 : TrimConfig := ⟨1, 0, 0, 10⟩

theorem C10_pval_independent_witness :
    (trimmed cfgC10 tblC10a).map Obs.key = (trimmed cfgC10 tblC10b).map Obs.key :=
  C10_pval_independent cfgC10 tblC10a tblC10b (by decide)

/-! ### Round trip: widify after longify -/

theorem find?_map_pair {α β : Type} [BEq α] (f : α → β) (xs : List α) (a : α) :
    ((xs.map fun x => (x, f x)).find? fun p => p.1 == a) =
      (xs.find? fun x => x == a).map fun x => (x, f x) := by
  induction xs with
  | nil => rfl
  | cons x xs ih =>
    simp only [List.map_cons, List.find?_cons]
    by_cases h : (x == a) = true
    · simp [h]
    · simp [h, ih]

theorem zip_self_map {α β : Type} (xs : List α) (g : α → β) :
    xs.zip (xs.map g) = xs.map fun x => (x, g x) := by
  simpa using List.zip_map' (fun x => x) g xs

theorem mem_sort_dedup_str (xs : List String) (a : String) :
    a ∈ (xs.dedup.insertionSort (· ≤ ·)) ↔ a ∈ xs := by
  rw [(List.perm_insertionSort _ _).mem_iff, List.mem_dedup]

theorem mem_sort_dedup_int (xs : List Int) (a : Int) :
    a ∈ (xs.dedup.insertionSort (· ≤ ·)) ↔ a ∈ xs := by
  rw [(List.perm_insertionSort _ _).mem_iff, List.mem_dedup]

theorem cellValue_widify (l : List Obs) (rid : String) (pos : Int) :
    cellValue (widify l) rid pos = lookupObs l rid pos := by
  simp only [widify, cellValue]
  rw [find?_map_pair]
  cases hfr : (((l.map Obs.read_id).dedup).insertionSort (· ≤ ·)).find?
      (fun r => r == rid) with
  | none =>
    have hnot : rid ∉ l.map Obs.read_id := by
      intro hmem
      have h1 : rid ∈ ((l.map Obs.read_id).dedup).insertionSort (· ≤ ·) :=
        (mem_sort_dedup_str _ _).mpr hmem
      have h2 := List.find?_eq_none.mp hfr rid h1
      simp at h2
    have hfind : (l.find? fun o => o.read_id == rid && o.pos_0b == pos) = none := by
      rw [List.find?_eq_none]
      intro o ho hpred
      rw [Bool.and_eq_true, beq_iff_eq, beq_iff_eq] at hpred
      exact hnot (hpred.1 ▸ List.mem_map_of_mem Obs.read_id ho)
    simp [lookupObs, hfind, hfr]
  | some r =>
    have hr1 := List.find?_some hfr
    have hr : r = rid := beq_iff_eq.mp hr1
    rw [hr]
    simp only [Option.map_some', Option.some_bind]
    rw [zip_self_map, find?_map_pair]
    cases hfc : (((l.map Obs.pos_0b).dedup).insertionSort (· ≤ ·)).find?
        (fun c => c == pos) with
    | none =>
      have hnot : pos ∉ l.map Obs.pos_0b := by
        intro hmem
        have h1 : pos ∈ ((l.map Obs.pos_0b).dedup).insertionSort (· ≤ ·) :=
          (mem_sort_dedup_int _ _).mpr hmem
        have h2 := List.find?_eq_none.mp hfc pos h1
        simp at h2
      have hfind : (l.find? fun o => o.read_id == rid && o.pos_0b == pos) = none := by
        rw [List.find?_eq_none]
        intro o ho hpred
        rw [Bool.and_eq_true, beq_iff_eq, beq_iff_eq] at hpred
        exact hnot (hpred.2 ▸ List.mem_map_of_mem Obs.pos_0b ho)
      simp [lookupObs, hfind]
    | some c =>
      have hc1 := List.find?_some hfc
      have hcp : c = pos := beq_iff_eq.mp hc1
      rw [hcp]
      rfl

theorem map_fst_zip_sublist {α β : Type} :
    ∀ (l1 : List α) (l2 : List β), ((l1.zip l2).map Prod.fst).Sublist l1 := by
  intro l1
  induction l1 with
  | nil => intro l2; simp
  | cons a l1 ih =>
    intro l2
    cases l2 with
    | nil => simp
    | cons b l2 =>
      simp only [List.zip_cons_cons, List.map_cons]
      exact (ih l2).cons₂ a

theorem read_id_of_mem_longifyRow (cols : List Int)
    (row : String × List (Option Rat)) (o : Obs) (ho : o ∈ longifyRow cols row) :
    o.read_id = row.1 := by
  obtain ⟨c, hc2, ho3⟩ := List.mem_filterMap.mp ho
  cases hcv : c.2 with
  | none => rw [hcv] at ho3; simp at ho3
  | some v =>
    rw [hcv] at ho3
    simp only [Option.map_some', Option.some.injEq] at ho3
    rw [← ho3]

theorem read_id_mem_of_mem_longify (cols : List Int)
    (rows : List (String × List (Option Rat))) (o : Obs)
    (ho : o ∈ longify ⟨cols, rows⟩) : o.read_id ∈ rows.map Prod.fst := by
  obtain ⟨row, hrow, ho2⟩ := List.mem_flatMap.mp ho
  rw [read_id_of_mem_longifyRow cols row o ho2]
  exact List.mem_map_of_mem Prod.fst hrow

theorem find_row_cell (rid : String) (pos : Int) :
    ∀ zs : List (Int × Option Rat), (zs.map Prod.fst).Nodup →
      ((zs.filterMap fun c => c.2.map fun v => (⟨rid, c.1, v⟩ : Obs)).find?
          fun o => o.read_id == rid && o.pos_0b == pos).map Obs.pval
        = (zs.find? fun c => c.1 == pos).bind Prod.snd := by
  intro zs
  induction zs with
  | nil => intro _; rfl
  | cons c zs ih =>
    intro hnd
    rw [List.map_cons, List.nodup_cons] at hnd
    obtain ⟨hc1, hnd2⟩ := hnd
    obtain ⟨cpos, cval⟩ := c
    by_cases hp : cpos = pos
    · rw [List.find?_cons_of_pos _ (by simp [hp])]
      cases cval with
      | none =>
        simp only [List.filterMap_cons, Option.map_none']
        have hrest : ((zs.filterMap fun c => c.2.map fun v => (⟨rid, c.1, v⟩ : Obs)).find?
            fun o => o.read_id == rid && o.pos_0b == pos) = none := by
          rw [List.find?_eq_none]
          intro o ho hpred
          obtain ⟨z, hz, hzo⟩ := List.mem_filterMap.mp ho
          rw [Bool.and_eq_true, beq_iff_eq, beq_iff_eq] at hpred
          apply hc1
          show cpos ∈ zs.map Prod.fst
          rw [hp, ← hpred.2]
          cases hzv : z.2 with
          | none => rw [hzv] at hzo; simp at hzo
          | some v =>
            rw [hzv] at hzo
            simp only [Option.map_some', Option.some.injEq] at hzo
            rw [← hzo]
            exact List.mem_map_of_mem Prod.fst hz
        rw [hrest]
        rfl
      | some v =>
        simp only [List.filterMap_cons, Option.map_some']
        rw [List.find?_cons_of_pos _ (by simp [hp])]
        rfl
    · rw [List.find?_cons_of_neg _ (by simp [hp])]
      cases cval with
      | none =>
        simp only [List.filterMap_cons, Option.map_none']
        exact ih hnd2
      | some v =>
        simp only [List.filterMap_cons, Option.map_some']
        rw [List.find?_cons_of_neg _ (by simp [hp])]
        exact ih hnd2

theorem lookup_longify (cols : List Int) (rid : String) (pos : Int) (hc : cols.Nodup) :
    ∀ rows : List (String × List (Option Rat)), (rows.map Prod.fst).Nodup →
      lookupObs (longify ⟨cols, rows⟩) rid pos = cellValue ⟨cols, rows⟩ rid pos := by
  intro rows
  induction rows with
  | nil => intro _; rfl
  | cons row rest ih =>
    intro hnd
    rw [List.map_cons, List.nodup_cons] at hnd
    obtain ⟨hr1, hnd2⟩ := hnd
    obtain ⟨rowid, vals⟩ := row
    have hsplit : longify ⟨cols, (rowid, vals) :: rest⟩
        = longifyRow cols (rowid, vals) ++ longify ⟨cols, rest⟩ := by
      simp [longify]
    rw [lookupObs, hsplit, List.find?_append]
    by_cases hid : rowid = rid
    · have hrest : (longify ⟨cols, rest⟩).find?
          (fun o => o.read_id == rid && o.pos_0b == pos) = none := by
        rw [List.find?_eq_none]
        intro o ho hpred
        rw [Bool.and_eq_true, beq_iff_eq, beq_iff_eq] at hpred
        apply hr1
        show rowid ∈ rest.map Prod.fst
        rw [hid, ← hpred.1]
        exact read_id_mem_of_mem_longify cols rest o ho
      rw [hrest, Option.or_none]
      have hcell : cellValue ⟨cols, (rowid, vals) :: rest⟩ rid pos
          = ((cols.zip vals).find? fun c => c.1 == pos).bind Prod.snd := by
        simp only [cellValue]
        rw [List.find?_cons_of_pos _ (by simp [hid])]
        rfl
      rw [hcell]
      have hznd : ((cols.zip vals).map Prod.fst).Nodup :=
        List.Nodup.sublist (map_fst_zip_sublist cols vals) hc
      have hfc := find_row_cell rid pos (cols.zip vals) hznd
      rw [hid]
      exact hfc
    · have hrow : (longifyRow cols (rowid, vals)).find?
          (fun o => o.read_id == rid && o.pos_0b == pos) = none := by
        rw [List.find?_eq_none]
        intro o ho hpred
        rw [Bool.and_eq_true, beq_iff_eq, beq_iff_eq] at hpred
        exact hid ((read_id_of_mem_longifyRow cols (rowid, vals) o ho).symm.trans hpred.1)
      rw [hrow, Option.none_or]
      have hcell : cellValue ⟨cols, (rowid, vals) :: rest⟩ rid pos
          = cellValue ⟨cols, rest⟩ rid pos := by
        simp only [cellValue]
        rw [List.find?_cons_of_neg _ (by simp [hid])]
      rw [hcell, ← ih hnd2]
      rfl

/-- C6: converting a wide table to long form and straight back reproduces,
cell for cell, the original present/absent pattern and the original values:
the two tables assign the same optional value to every `(read_id, position)`
coordinate (this identifies tables up to row and column ordering and up to
rows or columns that hold no present cell). -/
theorem C6_round_trip (w : WideTable) (hc : w.cols.Nodup)
    (hr : (w.rows.map Prod.fst).Nodup) (rid : String) (pos : Int) :
    cellValue (widify (longify w)) rid pos = cellValue w rid pos := by
  rw [cellValue_widify]
  obtain ⟨cols, rows⟩ := w
  exact lookup_longify cols rid pos hc rows hr

def wC6 : WideTable := ⟨[0, 2], [("r1", [some 1, none])]⟩

theorem C6_round_trip_witness :
    cellValue (widify (longify wC6)) "r1" 0 = cellValue wC6 "r1" 0 :=
  C6_round_trip wC6 (by decide) (by decide) "r1" 0
